import Mathlib

/-!
Verification of gdbinit/evilquest_stats (src/main.go).

The program walks a directory tree, filters regular files whose size equals
the fingerprint constant, parses each candidate as a Mach-O binary, extracts
the bytes of the sections named text and cstring, hashes each extracted
buffer with SHA-256, and aggregates digest frequencies into two maps
(codeHashes and cstringHashes) guarded by a mutex.  A signal handler sets a
cooperative cancellation flag, waits for the worker pool to drain, prints
both tables and exits.

The embedding below is shallow:
  - the SHA-256 core (crypto/sha256, an external collaborator per the spec)
    is a parameter sha : Bytes → Bytes; the hex encoding of the digest is
    modelled concretely (get_sha256);
  - a file as seen by analyseBinary is a FileContent value recording whether
    os.Open failed, whether macho.NewFile failed, and for a parsed binary
    which of the two sections are present and whether reading their bytes
    succeeds;
  - the map increments, each performed under mapMutex, are atomic events;
    a concurrent execution of the worker pool is any linearisation
    (permutation) of the per-file event lists;
  - the interleaving of the folder goroutine, the pool workers, the signal
    handler goroutine and the main goroutine is modelled by an explicit
    transition system (Step / Reach) used for the shutdown claims.
-/

namespace EvilQuestStats

/-- Byte buffers are lists of byte values. -/
abbrev Bytes := List Nat

/-- Digests are hex strings, as produced by hex.EncodeToString. -/
abbrev Digest := String

/-- The candidate fingerprint: samples have this exact file size
(src/main.go line 60). -/
def fileSize : Nat := 172792

/-- One lowercase hex digit for the low four bits of the input. -/
def hexDigit (n : Nat) : Char :=
  match n % 16 with
  | 0 => '0' | 1 => '1' | 2 => '2' | 3 => '3' | 4 => '4'
  | 5 => '5' | 6 => '6' | 7 => '7' | 8 => '8' | 9 => '9'
  | 10 => 'a' | 11 => 'b' | 12 => 'c' | 13 => 'd' | 14 => 'e'
  | _ => 'f'

/-- hex.EncodeToString: two hex digits per byte, high nibble first. -/
def hexEncodeToString (bs : Bytes) : String :=
  String.mk (bs.foldr (fun b acc => hexDigit (b / 16) :: hexDigit b :: acc) [])

/-- get_sha256 (src/main.go lines 96-102).  The SHA-256 compression itself is
the external crypto/sha256 collaborator, abstracted as the parameter sha;
the hex encoding of its digest bytes is concrete. -/
def get_sha256 (sha : Bytes → Bytes) (buf : Bytes) : Digest :=
  hexEncodeToString (sha buf)

/-- One Mach-O section as analyseBinary sees it: the bytes the section holds
and whether the Read call on the section reader succeeds (src lines 120-124,
134-138). -/
structure SectionData where
  bytes : Bytes
  readOk : Bool
deriving DecidableEq

/-- The two sections analyseBinary looks up by name; a missing section is
modelled by none (machoFile.Section returns nil). -/
structure MachoData where
  text : Option SectionData
  cstring : Option SectionData
deriving DecidableEq

/-- What a path yields to analyseBinary: os.Open fails, macho.NewFile fails
(not a parseable Mach-O), or a parsed binary. -/
inductive FileContent where
  | openErr : FileContent
  | notMacho : FileContent
  | macho : MachoData → FileContent
deriving DecidableEq

/-- The two global frequency maps codeHashes and cstringHashes (src lines
67-68).  A Go map with int values reads 0 for a missing key, so a table is a
total function from digests to counts. -/
structure Tables where
  codeHashes : Digest → Nat
  cstringHashes : Digest → Nat

attribute [ext] Tables

/-- Both maps start empty. -/
def initTables : Tables := ⟨fun _ => 0, fun _ => 0⟩

/-- The increment m[hash]++ on one map. -/
def bump (t : Digest → Nat) (d : Digest) : Digest → Nat :=
  fun x => if x = d then t x + 1 else t x

/-- The cstring half of analyseBinary (src lines 132-145): if the section is
present and its bytes can be read, hash them and increment cstringHashes;
a failed read returns with the tables as they are. -/
def analyseCstring (sha : Bytes → Bytes) (m : MachoData) (t : Tables) : Tables :=
  match m.cstring with
  | some sec =>
    if sec.readOk then
      { t with cstringHashes := bump t.cstringHashes (get_sha256 sha sec.bytes) }
    else t
  | none => t

/-- analyseBinary (src lines 104-147) as a transformer of the two tables.
An open error or a Mach-O parse error leaves both tables unchanged.  If the
text section is present but reading it fails the function returns at once,
before looking at cstring; if the read succeeds codeHashes is incremented
and the cstring section is examined next. -/
def analyseBinary (sha : Bytes → Bytes) (f : FileContent) (t : Tables) : Tables :=
  match f with
  | .openErr => t
  | .notMacho => t
  | .macho m =>
    match m.text with
    | some sec =>
      if sec.readOk then
        analyseCstring sha m
          { t with codeHashes := bump t.codeHashes (get_sha256 sha sec.bytes) }
      else t
    | none => analyseCstring sha m t

/-- Processing a list of file contents one after the other, the sequential
(jobs = 1) order. -/
def processFiles (sha : Bytes → Bytes) (fs : List FileContent) (t : Tables) : Tables :=
  fs.foldl (fun acc f => analyseBinary sha f acc) t

/-- The text buffer the run reads successfully from a file, when there is
one. -/
def textExtract : FileContent → Option Bytes
  | .macho m =>
    match m.text with
    | some sec => if sec.readOk then some sec.bytes else none
    | none => none
  | _ => none

/-- The cstring buffer actually read once control reaches the cstring half. -/
def cstrPart (m : MachoData) : Option Bytes :=
  match m.cstring with
  | some sec => if sec.readOk then some sec.bytes else none
  | none => none

/-- The cstring buffer the run reads successfully from a file: a failed text
read returns before cstring is examined, so its presence is gated on the
text outcome exactly as in analyseBinary. -/
def cstringExtract : FileContent → Option Bytes
  | .macho m =>
    match m.text with
    | some sec => if sec.readOk then cstrPart m else none
    | none => cstrPart m
  | _ => none

/-- One atomic table increment performed under mapMutex. -/
inductive Ev where
  | code : Digest → Ev
  | cstr : Digest → Ev
deriving DecidableEq

/-- Apply one increment event to the tables. -/
def applyEv (t : Tables) : Ev → Tables
  | .code d => { t with codeHashes := bump t.codeHashes d }
  | .cstr d => { t with cstringHashes := bump t.cstringHashes d }

/-- Apply a linearised sequence of increment events. -/
def applyEvents (l : List Ev) (t : Tables) : Tables :=
  l.foldl applyEv t

/-- The events the cstring half of analyseBinary emits. -/
def cstrEvents (sha : Bytes → Bytes) (m : MachoData) : List Ev :=
  match m.cstring with
  | some sec => if sec.readOk then [Ev.cstr (get_sha256 sha sec.bytes)] else []
  | none => []

/-- The increment events processing one file emits, in program order. -/
def fileEvents (sha : Bytes → Bytes) : FileContent → List Ev
  | .macho m =>
    match m.text with
    | some sec =>
      if sec.readOk then Ev.code (get_sha256 sha sec.bytes) :: cstrEvents sha m
      else []
    | none => cstrEvents sha m
  | _ => []

/-- All events of a run over a list of files, in the sequential order. -/
def runEvents (sha : Bytes → Bytes) (fs : List FileContent) : List Ev :=
  fs.flatMap (fileEvents sha)

/-- How many buffers of a list hash to a given digest. -/
def hashCount (sha : Bytes → Bytes) (d : Digest) : List Bytes → Nat
  | [] => 0
  | b :: rest => (if get_sha256 sha b = d then 1 else 0) + hashCount sha d rest

/-- How many code increments for a given digest a sequence of events holds. -/
def countCode (d : Digest) : List Ev → Nat
  | [] => 0
  | .code x :: rest => (if x = d then 1 else 0) + countCode d rest
  | .cstr _ :: rest => countCode d rest

/-- How many cstring increments for a given digest a sequence of events
holds. -/
def countCstr (d : Digest) : List Ev → Nat
  | [] => 0
  | .code _ :: rest => countCstr d rest
  | .cstr x :: rest => (if x = d then 1 else 0) + countCstr d rest

/-- One callback of a filepath.Walk traversal: whether the walk function is
invoked with a non-nil error for this entry, whether the entry is a regular
file, its size, and what analyseBinary would see if the path were opened. -/
structure Entry where
  walkErr : Bool
  isRegular : Bool
  size : Nat
  content : FileContent
deriving DecidableEq

/-- The entries the dispatch walk actually schedules: the callback saw no
error, the file is regular and its size equals the fingerprint. -/
def candFilter (corpus : List Entry) : List Entry :=
  corpus.filter (fun e => !e.walkErr && e.isRegular && (e.size == fileSize))

/-- The counting pass (src lines 154-162): entries with a callback error are
skipped, regular files of the fingerprint size increment totalWork. -/
def countWalk : List Entry → Nat
  | [] => 0
  | e :: rest =>
    if e.walkErr then countWalk rest
    else if e.isRegular && (e.size == fileSize) then countWalk rest + 1
    else countWalk rest

/-- The cancellation flag as observed at callback index i: the interrupt is
delivered before the k-th callback check (none means no interrupt during the
walk).  The flag is monotone by construction, matching the write
interrupted = true that is never undone. -/
def cutHit (cut : Option Nat) (i : Nat) : Bool :=
  match cut with
  | none => false
  | some k => k ≤ i

/-- Outcome of the dispatch walk: which entries were scheduled, and whether
the walk returned io.EOF because it observed the cancellation flag. -/
structure WalkOut where
  dispatched : List Entry
  sawEOF : Bool
deriving DecidableEq

/-- The dispatch walk callback (src lines 186-203), indexed by callback
number.  A callback with a non-nil error returns nil before the flag check;
otherwise a set cancellation flag makes the callback return io.EOF, ending
the walk; otherwise a candidate is scheduled (sent to the tasks channel or
processed inline) and the walk continues. -/
def dispatchAux (cut : Option Nat) : Nat → List Entry → WalkOut
  | _, [] => ⟨[], false⟩
  | i, e :: rest =>
    if e.walkErr then dispatchAux cut (i + 1) rest
    else if cutHit cut i then ⟨[], true⟩
    else if e.isRegular && (e.size == fileSize) then
      let w := dispatchAux cut (i + 1) rest
      ⟨e :: w.dispatched, w.sawEOF⟩
    else dispatchAux cut (i + 1) rest

/-- The dispatch walk from the first callback. -/
def dispatchWalk (cut : Option Nat) (corpus : List Entry) : WalkOut :=
  dispatchAux cut 0 corpus

/-- What analyseFolder leaves behind: the scheduled entries, the final
tables once every scheduled task has been processed, how many times the
tasks channel was closed, whether a walk error was printed for the dispatch
walk, and whether analyseFolder itself called showResults. -/
structure FolderOut where
  dispatched : List Entry
  tables : Tables
  closedCount : Nat
  errPrinted : Bool
  reported : Bool

/-- analyseFolder (src lines 149-227) linearised.  Every scheduled task is
processed before the run reports: inline for jobs <= 1, and for jobs > 1 the
unbuffered channel hands each sent task to exactly one worker and both
report paths first wait on jobGroup.  If the walk returned io.EOF the
channel is closed once and the function returns without reporting (the
signal handler reports); on normal completion the channel is closed exactly
when jobs > 1, and analyseFolder reports.  The only error print of the
dispatch walk is for a non-nil, non-EOF walk return value, which cannot
happen since every callback returns nil or io.EOF. -/
def analyseFolder (sha : Bytes → Bytes) (jobs : Int) (cut : Option Nat)
    (corpus : List Entry) : FolderOut :=
  let w := dispatchWalk cut corpus
  let tbl := processFiles sha (w.dispatched.map Entry.content) initTables
  if w.sawEOF then ⟨w.dispatched, tbl, 1, false, false⟩
  else if 1 < jobs then ⟨w.dispatched, tbl, 1, false, true⟩
  else ⟨w.dispatched, tbl, 0, false, true⟩

/-- The argument check in main (src lines 255-260): an empty -i value prints
usage and exits with status 1 before any scan starts; otherwise main does
not exit here. -/
def mainArgExit (input : String) : Option Nat :=
  if input = "" then some 1 else none

/-- Program counter of the analyseFolder goroutine: the counting pass, the
dispatch walk, the io.EOF path (close the channel and return without
reporting), and the normal path (close the channel when jobs > 1, wait for
the pool, call showResults, then mainGroup.Done). -/
inductive FolderPC where
  | counting : FolderPC
  | walking : FolderPC
  | eofClose : FolderPC
  | folderReturned : FolderPC
  | closing : FolderPC
  | waiting : FolderPC
  | reporting : FolderPC
  | signalMain : FolderPC
  | folderDone : FolderPC
deriving DecidableEq

/-- Program counter of the signal-handler goroutine (src lines 83-94): idle
until a signal arrives, then it sets the flag, waits on jobGroup, calls
showResults and calls os.Exit(0). -/
inductive HandlerPC where
  | idle : HandlerPC
  | fired : HandlerPC
  | waitingH : HandlerPC
  | reportingH : HandlerPC
  | exitingH : HandlerPC
deriving DecidableEq

/-- Global state of one run, abstracting the corpus to the number of
candidate callbacks still ahead of the walker.  alive counts workers that
have not yet returned (the jobGroup counter), busy counts workers currently
inside analyseBinary (mutating the tables), walkerBusy marks the walker
itself inside an inline analyseBinary call.  reports counts executions of
showResults.  Once exited is set the process is gone and nothing steps. -/
structure Sys where
  jobs : Int
  entries : Nat
  alive : Nat
  busy : Nat
  walkerBusy : Bool
  closed : Bool
  interrupted : Bool
  fpc : FolderPC
  hpc : HandlerPC
  reports : Nat
  mainDone : Bool
  exited : Bool
  ecode : Nat
deriving DecidableEq

/-- Initial state: main has parsed arguments and spawned analyseFolder. -/
def initSys (j : Int) (n : Nat) : Sys :=
  ⟨j, n, 0, 0, false, false, false, .counting, .idle, 0, false, false, 0⟩

/-- One interleaved step of the run.  Every constructor requires the process
not to have exited (os.Exit ends everything).  The walker checks the
cancellation flag at each callback, so with the flag set it cannot dispatch;
the flag check and the dispatch of one entry are one atomic step, which is
interleaving-equivalent to the source where the flag may be set between the
check and the send.  An unbuffered channel send is a synchronous handoff to
an idle worker.  jobGroup.Wait returns when the counter is zero. -/
inductive Step : Sys → Sys → Prop where
  | startScan (s : Sys) (h1 : s.exited = false) (h2 : s.fpc = .counting) :
      Step s { s with fpc := .walking,
                      alive := if 1 < s.jobs then s.jobs.toNat else 0 }
  | dispatchTask (s : Sys) (h1 : s.exited = false) (h2 : s.fpc = .walking)
      (h3 : 1 < s.jobs) (h4 : 0 < s.entries) (h5 : s.interrupted = false)
      (h6 : s.busy < s.alive) (h7 : s.walkerBusy = false) :
      Step s { s with entries := s.entries - 1, busy := s.busy + 1 }
  | dispatchInline (s : Sys) (h1 : s.exited = false) (h2 : s.fpc = .walking)
      (h3 : ¬ 1 < s.jobs) (h4 : 0 < s.entries) (h5 : s.interrupted = false)
      (h6 : s.walkerBusy = false) :
      Step s { s with entries := s.entries - 1, walkerBusy := true }
  | inlineFinish (s : Sys) (h1 : s.exited = false) (h2 : s.walkerBusy = true) :
      Step s { s with walkerBusy := false }
  | observeFlag (s : Sys) (h1 : s.exited = false) (h2 : s.fpc = .walking)
      (h3 : s.interrupted = true) (h4 : s.walkerBusy = false) :
      Step s { s with fpc := .eofClose }
  | eofCloseStep (s : Sys) (h1 : s.exited = false) (h2 : s.fpc = .eofClose) :
      Step s { s with closed := true, fpc := .folderReturned }
  | walkDone (s : Sys) (h1 : s.exited = false) (h2 : s.fpc = .walking)
      (h3 : s.entries = 0) (h4 : s.walkerBusy = false) :
      Step s { s with fpc := if 1 < s.jobs then .closing else .reporting }
  | closeStep (s : Sys) (h1 : s.exited = false) (h2 : s.fpc = .closing) :
      Step s { s with closed := true, fpc := .waiting }
  | waitDone (s : Sys) (h1 : s.exited = false) (h2 : s.fpc = .waiting)
      (h3 : s.alive = 0) :
      Step s { s with fpc := .reporting }
  | reportStep (s : Sys) (h1 : s.exited = false) (h2 : s.fpc = .reporting) :
      Step s { s with reports := s.reports + 1, fpc := .signalMain }
  | signalMainStep (s : Sys) (h1 : s.exited = false) (h2 : s.fpc = .signalMain) :
      Step s { s with mainDone := true, fpc := .folderDone }
  | workerFinish (s : Sys) (h1 : s.exited = false) (h2 : 0 < s.busy) :
      Step s { s with busy := s.busy - 1 }
  | workerExit (s : Sys) (h1 : s.exited = false) (h2 : s.closed = true)
      (h3 : s.busy < s.alive) :
      Step s { s with alive := s.alive - 1 }
  | signalFire (s : Sys) (h1 : s.exited = false) (h2 : s.hpc = .idle) :
      Step s { s with hpc := .fired }
  | setFlag (s : Sys) (h1 : s.exited = false) (h2 : s.hpc = .fired) :
      Step s { s with interrupted := true, hpc := .waitingH }
  | handlerWaitDone (s : Sys) (h1 : s.exited = false) (h2 : s.hpc = .waitingH)
      (h3 : s.alive = 0) :
      Step s { s with hpc := .reportingH }
  | handlerReport (s : Sys) (h1 : s.exited = false) (h2 : s.hpc = .reportingH) :
      Step s { s with reports := s.reports + 1, hpc := .exitingH }
  | handlerExit (s : Sys) (h1 : s.exited = false) (h2 : s.hpc = .exitingH) :
      Step s { s with exited := true, ecode := 0 }
  | mainExitStep (s : Sys) (h1 : s.exited = false) (h2 : s.mainDone = true) :
      Step s { s with exited := true, ecode := 0 }

/-- States reachable in a run started with the given parallelism and number
of candidate entries. -/
inductive Reach (j : Int) (n : Nat) : Sys → Prop where
  | init : Reach j n (initSys j n)
  | tail {s t : Sys} : Reach j n s → Step s t → Reach j n t

/-! ### Lemmas about the increment events -/

theorem bump_comm (t : Digest → Nat) (d1 d2 : Digest) :
    bump (bump t d1) d2 = bump (bump t d2) d1 := by
  funext x
  simp only [bump]
  by_cases h1 : x = d2 <;> by_cases h2 : x = d1 <;>
    simp only [h1, h2, if_pos, if_neg, if_true, if_false] <;>
    split_ifs <;> omega

theorem applyEv_comm (t : Tables) (a b : Ev) :
    applyEv (applyEv t a) b = applyEv (applyEv t b) a := by
  cases a <;> cases b <;> simp [applyEv, bump_comm]

theorem applyEvents_append (l1 l2 : List Ev) (t : Tables) :
    applyEvents (l1 ++ l2) t = applyEvents l2 (applyEvents l1 t) := by
  simp [applyEvents, List.foldl_append]

/-- The final tables do not depend on the linearisation order of the
increment events. -/
theorem applyEvents_perm {l1 l2 : List Ev} (p : List.Perm l1 l2) :
    ∀ t, applyEvents l1 t = applyEvents l2 t := by
  induction p with
  | nil => intro t; rfl
  | cons x _ ih =>
    intro t
    simp only [applyEvents, List.foldl_cons] at *
    exact ih _
  | swap x y l =>
    intro t
    simp only [applyEvents, List.foldl_cons]
    rw [applyEv_comm]
  | trans _ _ ih1 ih2 =>
    intro t
    rw [ih1, ih2]

theorem analyseCstring_events (sha : Bytes → Bytes) (m : MachoData) (t : Tables) :
    analyseCstring sha m t = applyEvents (cstrEvents sha m) t := by
  obtain ⟨mt, mc⟩ := m
  cases mc with
  | none => rfl
  | some sec =>
    obtain ⟨bs, ro⟩ := sec
    cases ro <;> rfl

/-- Processing one file is exactly applying its increment events. -/
theorem analyseBinary_events (sha : Bytes → Bytes) (f : FileContent) (t : Tables) :
    analyseBinary sha f t = applyEvents (fileEvents sha f) t := by
  cases f with
  | openErr => rfl
  | notMacho => rfl
  | macho m =>
    obtain ⟨mt, mc⟩ := m
    cases mt with
    | none => exact analyseCstring_events sha ⟨none, mc⟩ t
    | some sec =>
      obtain ⟨bs, ro⟩ := sec
      cases ro with
      | false => rfl
      | true => exact analyseCstring_events sha ⟨some ⟨bs, true⟩, mc⟩ _

/-- The sequential run is the application of all events in program order. -/
theorem processFiles_events (sha : Bytes → Bytes) (fs : List FileContent) :
    ∀ t, processFiles sha fs t = applyEvents (runEvents sha fs) t := by
  induction fs with
  | nil => intro t; rfl
  | cons f fs ih =>
    intro t
    have h1 : processFiles sha (f :: fs) t
        = processFiles sha fs (analyseBinary sha f t) := rfl
    have h2 : runEvents sha (f :: fs) = fileEvents sha f ++ runEvents sha fs := rfl
    rw [h1, ih, h2, applyEvents_append, analyseBinary_events]

theorem countCode_append (d : Digest) (l1 l2 : List Ev) :
    countCode d (l1 ++ l2) = countCode d l1 + countCode d l2 := by
  induction l1 with
  | nil => simp [countCode]
  | cons e rest ih =>
    cases e <;>
      simp only [List.cons_append, countCode, List.append_eq, ih] <;> omega

theorem countCstr_append (d : Digest) (l1 l2 : List Ev) :
    countCstr d (l1 ++ l2) = countCstr d l1 + countCstr d l2 := by
  induction l1 with
  | nil => simp [countCstr]
  | cons e rest ih =>
    cases e <;>
      simp only [List.cons_append, countCstr, List.append_eq, ih] <;> omega

/-- Applying events adds exactly the number of matching code increments. -/
theorem applyEvents_codeHashes (l : List Ev) :
    ∀ (t : Tables) (d : Digest),
      (applyEvents l t).codeHashes d = t.codeHashes d + countCode d l := by
  induction l with
  | nil => intro t d; rfl
  | cons e rest ih =>
    intro t d
    have hstep : applyEvents (e :: rest) t = applyEvents rest (applyEv t e) := rfl
    rw [hstep, ih]
    cases e with
    | code x =>
      simp only [applyEv, countCode, bump, eq_comm]
      split_ifs <;> omega
    | cstr x => simp [applyEv, countCode]

/-- Applying events adds exactly the number of matching cstring
increments. -/
theorem applyEvents_cstringHashes (l : List Ev) :
    ∀ (t : Tables) (d : Digest),
      (applyEvents l t).cstringHashes d = t.cstringHashes d + countCstr d l := by
  induction l with
  | nil => intro t d; rfl
  | cons e rest ih =>
    intro t d
    have hstep : applyEvents (e :: rest) t = applyEvents rest (applyEv t e) := rfl
    rw [hstep, ih]
    cases e with
    | code x => simp [applyEv, countCstr]
    | cstr x =>
      simp only [applyEv, countCstr, bump, eq_comm]
      split_ifs <;> omega

theorem countCode_cstrEvents (sha : Bytes → Bytes) (m : MachoData) (d : Digest) :
    countCode d (cstrEvents sha m) = 0 := by
  obtain ⟨mt, mc⟩ := m
  cases mc with
  | none => rfl
  | some sec =>
    obtain ⟨bs, ro⟩ := sec
    cases ro <;> rfl

/-- The code events of one file count its successfully read text buffer. -/
theorem countCode_fileEvents (sha : Bytes → Bytes) (f : FileContent) (d : Digest) :
    countCode d (fileEvents sha f) =
      match textExtract f with
      | some b => if get_sha256 sha b = d then 1 else 0
      | none => 0 := by
  cases f with
  | openErr => rfl
  | notMacho => rfl
  | macho m =>
    obtain ⟨mt, mc⟩ := m
    cases mt with
    | none => exact countCode_cstrEvents sha ⟨none, mc⟩ d
    | some sec =>
      obtain ⟨bs, ro⟩ := sec
      cases ro with
      | false => rfl
      | true =>
        show (if get_sha256 sha bs = d then 1 else 0)
            + countCode d (cstrEvents sha ⟨some ⟨bs, true⟩, mc⟩)
            = if get_sha256 sha bs = d then 1 else 0
        rw [countCode_cstrEvents]
        omega

theorem countCstr_cstrEvents (sha : Bytes → Bytes) (m : MachoData) (d : Digest) :
    countCstr d (cstrEvents sha m) =
      match cstrPart m with
      | some b => if get_sha256 sha b = d then 1 else 0
      | none => 0 := by
  obtain ⟨mt, mc⟩ := m
  cases mc with
  | none => rfl
  | some sec =>
    obtain ⟨bs, ro⟩ := sec
    cases ro with
    | false => rfl
    | true =>
      show (if get_sha256 sha bs = d then 1 else 0) + 0
          = if get_sha256 sha bs = d then 1 else 0
      omega

/-- The cstring events of one file count its successfully read cstring
buffer, gated on the text read exactly as the code is. -/
theorem countCstr_fileEvents (sha : Bytes → Bytes) (f : FileContent) (d : Digest) :
    countCstr d (fileEvents sha f) =
      match cstringExtract f with
      | some b => if get_sha256 sha b = d then 1 else 0
      | none => 0 := by
  cases f with
  | openErr => rfl
  | notMacho => rfl
  | macho m =>
    obtain ⟨mt, mc⟩ := m
    cases mt with
    | none => exact countCstr_cstrEvents sha ⟨none, mc⟩ d
    | some sec =>
      obtain ⟨bs, ro⟩ := sec
      cases ro with
      | false => rfl
      | true => exact countCstr_cstrEvents sha ⟨some ⟨bs, true⟩, mc⟩ d

/-- Code events of a run count the successfully read text buffers. -/
theorem countCode_runEvents (sha : Bytes → Bytes) (fs : List FileContent) (d : Digest) :
    countCode d (runEvents sha fs) = hashCount sha d (fs.filterMap textExtract) := by
  induction fs with
  | nil => rfl
  | cons f fs ih =>
    have h2 : runEvents sha (f :: fs) = fileEvents sha f ++ runEvents sha fs := rfl
    rw [h2, countCode_append, countCode_fileEvents, ih, List.filterMap_cons]
    cases h : textExtract f with
    | none => simp
    | some b => simp [hashCount]

/-- Cstring events of a run count the successfully read cstring buffers. -/
theorem countCstr_runEvents (sha : Bytes → Bytes) (fs : List FileContent) (d : Digest) :
    countCstr d (runEvents sha fs) = hashCount sha d (fs.filterMap cstringExtract) := by
  induction fs with
  | nil => rfl
  | cons f fs ih =>
    have h2 : runEvents sha (f :: fs) = fileEvents sha f ++ runEvents sha fs := rfl
    rw [h2, countCstr_append, countCstr_fileEvents, ih, List.filterMap_cons]
    cases h : cstringExtract f with
    | none => simp
    | some b => simp [hashCount]

/-! ### Lemmas about the two walks -/

/-- With no interrupt during the walk, the dispatch pass schedules exactly
the candidates, in walk order, and does not return io.EOF. -/
theorem dispatchAux_none (l : List Entry) :
    ∀ i, dispatchAux none i l = ⟨candFilter l, false⟩ := by
  induction l with
  | nil => intro i; rfl
  | cons e rest ih =>
    intro i
    by_cases h1 : e.walkErr
    · simp [dispatchAux, h1, candFilter, List.filter_cons, ih]
    · by_cases h2 : e.isRegular && (e.size == fileSize)
      · simp [dispatchAux, cutHit, h1, h2, candFilter, List.filter_cons, ih]
      · simp [dispatchAux, cutHit, h1, h2, candFilter, List.filter_cons, ih]

theorem dispatchWalk_none (l : List Entry) :
    dispatchWalk none l = ⟨candFilter l, false⟩ :=
  dispatchAux_none l 0

/-- Once the walker is past the interrupt point it schedules nothing. -/
theorem dispatchAux_some_dispatched (l : List Entry) :
    ∀ k i, (dispatchAux (some k) i l).dispatched = candFilter (l.take (k - i)) := by
  induction l with
  | nil => intro k i; simp [dispatchAux, candFilter]
  | cons e rest ih =>
    intro k i
    by_cases h1 : e.walkErr
    · have hL : dispatchAux (some k) i (e :: rest) = dispatchAux (some k) (i + 1) rest := by
        simp [dispatchAux, h1]
      rw [hL, ih]
      rcases hki : k - i with _ | m
      · have hk1 : k - (i + 1) = 0 := by omega
        simp [hk1, candFilter]
      · have hk1 : k - (i + 1) = m := by omega
        rw [hk1, List.take_succ_cons]
        simp [candFilter, List.filter_cons, h1]
    · by_cases hcut : k ≤ i
      · have hki : k - i = 0 := by omega
        have hL : dispatchAux (some k) i (e :: rest) = ⟨[], true⟩ := by
          simp [dispatchAux, cutHit, h1, hcut]
        rw [hL, hki]
        simp [candFilter]
      · have hki : k - i = (k - (i + 1)) + 1 := by omega
        by_cases h2 : e.isRegular && (e.size == fileSize)
        · have hL : dispatchAux (some k) i (e :: rest)
              = ⟨e :: (dispatchAux (some k) (i + 1) rest).dispatched,
                 (dispatchAux (some k) (i + 1) rest).sawEOF⟩ := by
            simp [dispatchAux, cutHit, h1, h2, hcut]
          rw [hL]
          rw [hki, List.take_succ_cons]
          simp [candFilter, List.filter_cons, h1, h2, ih]
        · have hL : dispatchAux (some k) i (e :: rest) = dispatchAux (some k) (i + 1) rest := by
            simp [dispatchAux, cutHit, h1, h2, hcut]
          rw [hL, ih]
          rw [hki, List.take_succ_cons]
          simp [candFilter, List.filter_cons, h1, h2]

/-- The dispatch pass under an interrupt observed from callback k on:
exactly the candidates among the first k callbacks are scheduled. -/
theorem dispatchWalk_some_dispatched (l : List Entry) (k : Nat) :
    (dispatchWalk (some k) l).dispatched = candFilter (l.take k) := by
  have h := dispatchAux_some_dispatched l k 0
  simpa [dispatchWalk] using h

theorem countWalk_append (l1 l2 : List Entry) :
    countWalk (l1 ++ l2) = countWalk l1 + countWalk l2 := by
  induction l1 with
  | nil => simp [countWalk]
  | cons e rest ih =>
    by_cases h1 : e.walkErr
    · simp [countWalk, h1, ih]
    · by_cases h2 : e.isRegular && (e.size == fileSize)
      · simp [countWalk, h1, h2, ih]
        omega
      · simp [countWalk, h1, h2, ih]

/-! ### Safety invariant of the interleaved run -/

/-- Inductive invariant of the transition system.  The clauses feeding the
claims: an exited process has reported at least once, has no worker inside
analyseBinary, and carries exit code 0; with no pool configured no worker is
ever alive. -/
structure Inv (s : Sys) : Prop where
  busy_le : s.busy ≤ s.alive
  counting_zero : s.fpc = FolderPC.counting → s.alive = 0
  seq_no_pool : ¬ 1 < s.jobs → s.alive = 0
  folder_tail_alive :
    s.fpc = FolderPC.reporting ∨ s.fpc = FolderPC.signalMain ∨
      s.fpc = FolderPC.folderDone → s.alive = 0
  mainDone_fpc : s.mainDone = true → s.fpc = FolderPC.folderDone
  mainDone_props : s.mainDone = true → 1 ≤ s.reports ∧ s.alive = 0
  folder_reported :
    s.fpc = FolderPC.signalMain ∨ s.fpc = FolderPC.folderDone → 1 ≤ s.reports
  handler_int :
    s.hpc = HandlerPC.waitingH ∨ s.hpc = HandlerPC.reportingH ∨
      s.hpc = HandlerPC.exitingH → s.interrupted = true
  handler_busy :
    s.hpc = HandlerPC.reportingH ∨ s.hpc = HandlerPC.exitingH → s.busy = 0
  handler_reported : s.hpc = HandlerPC.exitingH → 1 ≤ s.reports
  exited_ok : s.exited = true → 1 ≤ s.reports ∧ s.busy = 0 ∧ s.ecode = 0

theorem inv_init (j : Int) (n : Nat) : Inv (initSys j n) := by
  refine ⟨?_, ?_, ?_, ?_, ?_, ?_, ?_, ?_, ?_, ?_, ?_⟩ <;> simp [initSys]

set_option maxHeartbeats 1000000 in
theorem inv_step {s t : Sys} (hi : Inv s) (hs : Step s t) : Inv t := by
  obtain ⟨i1, i2, i3, i4, i5, i6, i7, i8, i9, i10, i11⟩ := hi
  obtain ⟨js, es, al, bu, wb, cl, itr, fp, hp, rp, md, ex, ec⟩ := s
  cases hs <;>
    refine ⟨?_, ?_, ?_, ?_, ?_, ?_, ?_, ?_, ?_, ?_, ?_⟩ <;>
    simp_all <;>
    (try omega) <;>
    (try (split_ifs <;> simp_all))

/-- Every reachable state satisfies the invariant. -/
theorem reach_inv {j : Int} {n : Nat} {s : Sys} (h : Reach j n s) : Inv s := by
  induction h with
  | init => exact inv_init j n
  | tail _ hs ih => exact inv_step ih hs

/-- The parallelism parameter never changes during a run. -/
theorem reach_jobs {j : Int} {n : Nat} {s : Sys} (h : Reach j n s) : s.jobs = j := by
  induction h with
  | init => rfl
  | tail _ hs ih => cases hs <;> simpa using ih

/-! ### Helper lemmas about analyseFolder -/

theorem analyseFolder_tables (sha : Bytes → Bytes) (jobs : Int) (cut : Option Nat)
    (corpus : List Entry) :
    (analyseFolder sha jobs cut corpus).tables
      = processFiles sha ((dispatchWalk cut corpus).dispatched.map Entry.content)
          initTables := by
  simp only [analyseFolder]
  split_ifs <;> rfl

theorem analyseFolder_dispatched (sha : Bytes → Bytes) (jobs : Int) (cut : Option Nat)
    (corpus : List Entry) :
    (analyseFolder sha jobs cut corpus).dispatched = (dispatchWalk cut corpus).dispatched := by
  simp only [analyseFolder]
  split_ifs <;> rfl

theorem analyseFolder_errPrinted (sha : Bytes → Bytes) (jobs : Int) (cut : Option Nat)
    (corpus : List Entry) :
    (analyseFolder sha jobs cut corpus).errPrinted = false := by
  simp only [analyseFolder]
  split_ifs <;> rfl

theorem processFiles_append (sha : Bytes → Bytes) (l1 l2 : List FileContent) (t : Tables) :
    processFiles sha (l1 ++ l2) t = processFiles sha l2 (processFiles sha l1 t) := by
  simp [processFiles, List.foldl_append]

/-! ### The claims -/

/-- C1: for every run — sequentially folded or under any linearisation of
the mutex-protected increments of a concurrent execution — and for every
digest d, the count stored in codeHashes (resp. cstringHashes) for d equals
the number of successfully extracted-and-read text (resp. cstring) buffers
whose bytes hash to d: an exact accounting identity, nothing double-counted
and nothing dropped. -/
theorem accounting_identity (sha : Bytes → Bytes) (fs : List FileContent)
    (sched : List Ev) (d : Digest)
    (hsched : List.Perm sched (runEvents sha fs)) :
    (processFiles sha fs initTables).codeHashes d
        = hashCount sha d (fs.filterMap textExtract) ∧
    (processFiles sha fs initTables).cstringHashes d
        = hashCount sha d (fs.filterMap cstringExtract) ∧
    (applyEvents sched initTables).codeHashes d
        = hashCount sha d (fs.filterMap textExtract) ∧
    (applyEvents sched initTables).cstringHashes d
        = hashCount sha d (fs.filterMap cstringExtract) := by
  have hcode : (applyEvents (runEvents sha fs) initTables).codeHashes d
      = hashCount sha d (fs.filterMap textExtract) := by
    rw [applyEvents_codeHashes, countCode_runEvents]
    simp [initTables]
  have hcstr : (applyEvents (runEvents sha fs) initTables).cstringHashes d
      = hashCount sha d (fs.filterMap cstringExtract) := by
    rw [applyEvents_cstringHashes, countCstr_runEvents]
    simp [initTables]
  refine ⟨?_, ?_, ?_, ?_⟩
  · rw [processFiles_events sha fs initTables]; exact hcode
  · rw [processFiles_events sha fs initTables]; exact hcstr
  · rw [applyEvents_perm hsched initTables]; exact hcode
  · rw [applyEvents_perm hsched initTables]; exact hcstr

/-- C1 witness. -/
theorem accounting_identity_witness :
    List.Perm
      [Ev.cstr (get_sha256 (fun b => b) [2]), Ev.code (get_sha256 (fun b => b) [1])]
      (runEvents (fun b => b)
        [FileContent.macho ⟨some ⟨[1], true⟩, some ⟨[2], true⟩⟩, FileContent.notMacho]) ∧
    ((processFiles (fun b => b)
        [FileContent.macho ⟨some ⟨[1], true⟩, some ⟨[2], true⟩⟩, FileContent.notMacho]
        initTables).codeHashes (get_sha256 (fun b => b) [1])
      = hashCount (fun b => b) (get_sha256 (fun b => b) [1])
          (([FileContent.macho ⟨some ⟨[1], true⟩, some ⟨[2], true⟩⟩,
             FileContent.notMacho]).filterMap textExtract) ∧
     (processFiles (fun b => b)
        [FileContent.macho ⟨some ⟨[1], true⟩, some ⟨[2], true⟩⟩, FileContent.notMacho]
        initTables).cstringHashes (get_sha256 (fun b => b) [1])
      = hashCount (fun b => b) (get_sha256 (fun b => b) [1])
          (([FileContent.macho ⟨some ⟨[1], true⟩, some ⟨[2], true⟩⟩,
             FileContent.notMacho]).filterMap cstringExtract) ∧
     (applyEvents
        [Ev.cstr (get_sha256 (fun b => b) [2]), Ev.code (get_sha256 (fun b => b) [1])]
        initTables).codeHashes (get_sha256 (fun b => b) [1])
      = hashCount (fun b => b) (get_sha256 (fun b => b) [1])
          (([FileContent.macho ⟨some ⟨[1], true⟩, some ⟨[2], true⟩⟩,
             FileContent.notMacho]).filterMap textExtract) ∧
     (applyEvents
        [Ev.cstr (get_sha256 (fun b => b) [2]), Ev.code (get_sha256 (fun b => b) [1])]
        initTables).cstringHashes (get_sha256 (fun b => b) [1])
      = hashCount (fun b => b) (get_sha256 (fun b => b) [1])
          (([FileContent.macho ⟨some ⟨[1], true⟩, some ⟨[2], true⟩⟩,
             FileContent.notMacho]).filterMap cstringExtract)) :=
  ⟨by decide, accounting_identity (fun b => b) _ _ _ (by decide)⟩

/-- C2: on any fixed corpus, an uninterrupted run with parallelism N > 1 —
whose effect on the tables is some linearisation sched of the increment
events of the dispatched files, since each increment is atomic under
mapMutex and the unbuffered channel hands every task to exactly one
worker — produces exactly the tables of the inline parallelism-1 run; the
linearised model itself yields the same tables for every jobs value. -/
theorem parallel_equals_sequential (sha : Bytes → Bytes) (jobs : Int)
    (corpus : List Entry) (sched : List Ev) (hjobs : 1 < jobs)
    (hsched : List.Perm sched
      (runEvents sha ((dispatchWalk none corpus).dispatched.map Entry.content))) :
    applyEvents sched initTables = (analyseFolder sha 1 none corpus).tables ∧
    (analyseFolder sha jobs none corpus).tables
      = (analyseFolder sha 1 none corpus).tables := by
  constructor
  · rw [analyseFolder_tables, processFiles_events, applyEvents_perm hsched initTables]
  · rw [analyseFolder_tables, analyseFolder_tables]

/-- C2 witness. -/
theorem parallel_equals_sequential_witness :
    (1 : Int) < 4 ∧
    List.Perm
      [Ev.cstr (get_sha256 (fun b => b) [2]), Ev.code (get_sha256 (fun b => b) [1])]
      (runEvents (fun b => b)
        ((dispatchWalk none
          [⟨false, true, 172792, FileContent.macho ⟨some ⟨[1], true⟩, some ⟨[2], true⟩⟩⟩,
           ⟨true, true, 172792, FileContent.notMacho⟩]).dispatched.map Entry.content)) ∧
    (applyEvents
        [Ev.cstr (get_sha256 (fun b => b) [2]), Ev.code (get_sha256 (fun b => b) [1])]
        initTables
      = (analyseFolder (fun b => b) 1 none
          [⟨false, true, 172792, FileContent.macho ⟨some ⟨[1], true⟩, some ⟨[2], true⟩⟩⟩,
           ⟨true, true, 172792, FileContent.notMacho⟩]).tables ∧
     (analyseFolder (fun b => b) 4 none
          [⟨false, true, 172792, FileContent.macho ⟨some ⟨[1], true⟩, some ⟨[2], true⟩⟩⟩,
           ⟨true, true, 172792, FileContent.notMacho⟩]).tables
      = (analyseFolder (fun b => b) 1 none
          [⟨false, true, 172792, FileContent.macho ⟨some ⟨[1], true⟩, some ⟨[2], true⟩⟩⟩,
           ⟨true, true, 172792, FileContent.notMacho⟩]).tables) :=
  ⟨by decide, by decide,
    parallel_equals_sequential (fun b => b) 4 _ _ (by decide) (by decide)⟩

/-- C4: a candidate entry — regular, exactly the fingerprint size, no walk
error — whose content is not a parseable Mach-O binary is dispatched, but
analyseBinary returns silently on the macho.NewFile error, so the final
tables are exactly those of the same corpus without that file. -/
theorem notMacho_no_effect (sha : Bytes → Bytes) (jobs : Int)
    (pre post : List Entry) (e : Entry)
    (hw : e.walkErr = false) (hr : e.isRegular = true) (hsz : e.size = fileSize)
    (hc : e.content = FileContent.notMacho) :
    (analyseFolder sha jobs none (pre ++ e :: post)).tables
      = (analyseFolder sha jobs none (pre ++ post)).tables := by
  rw [analyseFolder_tables, analyseFolder_tables, dispatchWalk_none, dispatchWalk_none]
  have hcand : candFilter (pre ++ e :: post) = candFilter pre ++ e :: candFilter post := by
    simp [candFilter, List.filter_append, List.filter_cons, hw, hr, hsz]
  have hdrop : candFilter (pre ++ post) = candFilter pre ++ candFilter post := by
    simp [candFilter, List.filter_append]
  rw [hcand, hdrop]
  simp only [List.map_append, List.map_cons, hc]
  rw [processFiles_append]
  have hmid : processFiles sha (FileContent.notMacho :: (candFilter post).map Entry.content)
      (processFiles sha ((candFilter pre).map Entry.content) initTables)
      = processFiles sha ((candFilter post).map Entry.content)
          (processFiles sha ((candFilter pre).map Entry.content) initTables) := rfl
  rw [hmid, ← processFiles_append]

/-- C4 witness. -/
theorem notMacho_no_effect_witness :
    (⟨false, true, 172792, FileContent.notMacho⟩ : Entry).walkErr = false ∧
    (⟨false, true, 172792, FileContent.notMacho⟩ : Entry).isRegular = true ∧
    (⟨false, true, 172792, FileContent.notMacho⟩ : Entry).size = fileSize ∧
    (⟨false, true, 172792, FileContent.notMacho⟩ : Entry).content
      = FileContent.notMacho ∧
    (analyseFolder (fun b => b) 1 none
        ([⟨false, true, 172792, FileContent.macho ⟨some ⟨[1], true⟩, none⟩⟩]
          ++ (⟨false, true, 172792, FileContent.notMacho⟩ : Entry) :: [])).tables
      = (analyseFolder (fun b => b) 1 none
          ([⟨false, true, 172792, FileContent.macho ⟨some ⟨[1], true⟩, none⟩⟩]
            ++ [])).tables :=
  ⟨rfl, rfl, rfl, rfl,
    notMacho_no_effect (fun b => b) 1 _ _ _ rfl rfl rfl rfl⟩

/-- C6: the digest of a byte buffer is a pure function of its bytes, and
two runs on the same corpus — each a linearisation of the same increment
events, whatever the scheduling — produce identical final tables. -/
theorem run_determinism (sha : Bytes → Bytes) (b1 b2 : Bytes)
    (corpus : List Entry) (sched1 sched2 : List Ev)
    (hb : b1 = b2)
    (h1 : List.Perm sched1
      (runEvents sha ((dispatchWalk none corpus).dispatched.map Entry.content)))
    (h2 : List.Perm sched2
      (runEvents sha ((dispatchWalk none corpus).dispatched.map Entry.content))) :
    get_sha256 sha b1 = get_sha256 sha b2 ∧
    applyEvents sched1 initTables = applyEvents sched2 initTables := by
  constructor
  · rw [hb]
  · rw [applyEvents_perm h1, applyEvents_perm h2]

/-- C6 witness. -/
theorem run_determinism_witness :
    ([1, 2] : Bytes) = [1, 2] ∧
    List.Perm [Ev.code (get_sha256 (fun b => b) [1])]
      (runEvents (fun b => b)
        ((dispatchWalk none
          [⟨false, true, 172792, FileContent.macho ⟨some ⟨[1], true⟩, none⟩⟩]).dispatched.map
            Entry.content)) ∧
    (get_sha256 (fun b => b) [1, 2] = get_sha256 (fun b => b) [1, 2] ∧
     applyEvents [Ev.code (get_sha256 (fun b => b) [1])] initTables
      = applyEvents [Ev.code (get_sha256 (fun b => b) [1])] initTables) :=
  ⟨rfl, by decide,
    run_determinism (fun b => b) [1, 2] [1, 2]
      [⟨false, true, 172792, FileContent.macho ⟨some ⟨[1], true⟩, none⟩⟩]
      [Ev.code (get_sha256 (fun b => b) [1])]
      [Ev.code (get_sha256 (fun b => b) [1])]
      rfl (by decide) (by decide)⟩

/-- C8: an entry whose walk callback receives a non-nil error is skipped by
both passes — the counting total and the entire dispatch outcome are those
of the corpus without the entry — the callback returns nil rather than an
error (the walk does not end in io.EOF and no walk error is printed), and
traversal continues over the rest of the tree. -/
theorem walk_error_skipped (sha : Bytes → Bytes) (jobs : Int)
    (pre post : List Entry) (e : Entry) (he : e.walkErr = true) :
    countWalk (pre ++ e :: post) = countWalk (pre ++ post) ∧
    dispatchWalk none (pre ++ e :: post) = dispatchWalk none (pre ++ post) ∧
    (dispatchWalk none (pre ++ e :: post)).sawEOF = false ∧
    (analyseFolder sha jobs none (pre ++ e :: post)).errPrinted = false := by
  refine ⟨?_, ?_, ?_, ?_⟩
  · rw [countWalk_append, countWalk_append]
    have h : countWalk (e :: post) = countWalk post := by simp [countWalk, he]
    rw [h]
  · rw [dispatchWalk_none, dispatchWalk_none]
    simp [candFilter, List.filter_append, List.filter_cons, he]
  · rw [dispatchWalk_none]
  · exact analyseFolder_errPrinted sha jobs none (pre ++ e :: post)

/-- C8 witness. -/
theorem walk_error_skipped_witness :
    (⟨true, true, 172792, FileContent.notMacho⟩ : Entry).walkErr = true ∧
    (countWalk ([⟨false, true, 172792, FileContent.notMacho⟩]
        ++ (⟨true, true, 172792, FileContent.notMacho⟩ : Entry)
          :: [⟨false, true, 172792, FileContent.openErr⟩])
      = countWalk ([⟨false, true, 172792, FileContent.notMacho⟩]
        ++ [⟨false, true, 172792, FileContent.openErr⟩]) ∧
     dispatchWalk none ([⟨false, true, 172792, FileContent.notMacho⟩]
        ++ (⟨true, true, 172792, FileContent.notMacho⟩ : Entry)
          :: [⟨false, true, 172792, FileContent.openErr⟩])
      = dispatchWalk none ([⟨false, true, 172792, FileContent.notMacho⟩]
        ++ [⟨false, true, 172792, FileContent.openErr⟩]) ∧
     (dispatchWalk none ([⟨false, true, 172792, FileContent.notMacho⟩]
        ++ (⟨true, true, 172792, FileContent.notMacho⟩ : Entry)
          :: [⟨false, true, 172792, FileContent.openErr⟩])).sawEOF = false ∧
     (analyseFolder (fun b => b) 1 none
        ([⟨false, true, 172792, FileContent.notMacho⟩]
          ++ (⟨true, true, 172792, FileContent.notMacho⟩ : Entry)
            :: [⟨false, true, 172792, FileContent.openErr⟩])).errPrinted = false) :=
  ⟨rfl, walk_error_skipped (fun b => b) 1 _ _ _ rfl⟩

/-- C9: region handling within one file is not atomic across the two
categories.  If the text section is present but reading it fails,
analyseBinary returns before examining cstring, so neither table changes;
if the text increment has been applied and the cstring read then fails, the
text increment remains — the tables show exactly the one bump of codeHashes
and no rollback. -/
theorem region_handling_not_atomic (sha : Bytes → Bytes) :
    (∀ (m : MachoData) (sec : SectionData) (t : Tables),
      m.text = some sec → sec.readOk = false →
      analyseBinary sha (FileContent.macho m) t = t) ∧
    (∀ (m : MachoData) (s1 s2 : SectionData) (t : Tables),
      m.text = some s1 → s1.readOk = true →
      m.cstring = some s2 → s2.readOk = false →
      analyseBinary sha (FileContent.macho m) t
        = { t with codeHashes := bump t.codeHashes (get_sha256 sha s1.bytes) }) := by
  constructor
  · intro m sec t ht hr
    obtain ⟨mt, mc⟩ := m
    simp only at ht
    subst ht
    simp [analyseBinary, hr]
  · intro m s1 s2 t ht hr hc hr2
    obtain ⟨mt, mc⟩ := m
    simp only at ht hc
    subst ht
    subst hc
    simp [analyseBinary, analyseCstring, hr, hr2]

/-- C9 witness. -/
theorem region_handling_not_atomic_witness :
    ((⟨some ⟨[1], false⟩, some ⟨[2], true⟩⟩ : MachoData).text = some ⟨[1], false⟩ ∧
     (⟨[1], false⟩ : SectionData).readOk = false ∧
     analyseBinary (fun b => b)
        (FileContent.macho ⟨some ⟨[1], false⟩, some ⟨[2], true⟩⟩) initTables
      = initTables) ∧
    ((⟨some ⟨[1], true⟩, some ⟨[2], false⟩⟩ : MachoData).text = some ⟨[1], true⟩ ∧
     (⟨[1], true⟩ : SectionData).readOk = true ∧
     (⟨some ⟨[1], true⟩, some ⟨[2], false⟩⟩ : MachoData).cstring = some ⟨[2], false⟩ ∧
     (⟨[2], false⟩ : SectionData).readOk = false ∧
     analyseBinary (fun b => b)
        (FileContent.macho ⟨some ⟨[1], true⟩, some ⟨[2], false⟩⟩) initTables
      = { initTables with
            codeHashes := bump initTables.codeHashes (get_sha256 (fun b => b) [1]) }) :=
  ⟨⟨rfl, rfl,
      (region_handling_not_atomic (fun b => b)).1 ⟨some ⟨[1], false⟩, some ⟨[2], true⟩⟩
        ⟨[1], false⟩ initTables rfl rfl⟩,
   ⟨rfl, rfl, rfl, rfl,
      (region_handling_not_atomic (fun b => b)).2 ⟨some ⟨[1], true⟩, some ⟨[2], false⟩⟩
        ⟨[1], true⟩ ⟨[2], false⟩ initTables rfl rfl rfl rfl⟩⟩

/-- C10: for every parallelism value n <= 1 — including 0 and the negative
values the flag parser accepts — the run behaves exactly like the default
n = 1: analyseFolder produces the identical outcome (inline processing, no
close of the tasks channel on the normal path), and no pool worker is ever
alive in any reachable state of such a run. -/
theorem low_jobs_inline (sha : Bytes → Bytes) (n : Int) (cut : Option Nat)
    (corpus : List Entry) (hn : n ≤ 1) :
    analyseFolder sha n cut corpus = analyseFolder sha 1 cut corpus ∧
    (∀ (en : Nat) (s : Sys), Reach n en s → s.alive = 0) := by
  constructor
  · have h1 : ¬ (1 : Int) < 1 := by omega
    have h2 : ¬ 1 < n := by omega
    simp only [analyseFolder]
    split_ifs <;> rfl
  · intro en s hr
    have hj : s.jobs = n := reach_jobs hr
    exact (reach_inv hr).seq_no_pool (by omega)

/-- C10 witness. -/
theorem low_jobs_inline_witness :
    (-3 : Int) ≤ 1 ∧
    (analyseFolder (fun b => b) (-3) none
        [⟨false, true, 172792, FileContent.notMacho⟩]
      = analyseFolder (fun b => b) 1 none
          [⟨false, true, 172792, FileContent.notMacho⟩] ∧
     (∀ (en : Nat) (s : Sys), Reach (-3) en s → s.alive = 0)) :=
  ⟨by decide,
    low_jobs_inline (fun b => b) (-3) none
      [⟨false, true, 172792, FileContent.notMacho⟩] (by decide)⟩

/-- C3 counterexample: the report is not always printed exactly once.  A run
with jobs = 1 over an empty corpus completes normally — analyseFolder calls
showResults and signals mainGroup — and an interrupt delivered before the
main goroutine exits makes the handler pass jobGroup.Wait (no workers) and
call showResults a second time.  The final state of this interleaving has
reports = 2. -/
theorem double_report_counterexample :
    Reach 1 0 ⟨1, 0, 0, 0, false, false, true, FolderPC.folderDone,
      HandlerPC.exitingH, 2, true, false, 0⟩ ∧
    (⟨1, 0, 0, 0, false, false, true, FolderPC.folderDone,
      HandlerPC.exitingH, 2, true, false, 0⟩ : Sys).reports = 2 := by
  constructor
  · have r0 : Reach 1 0 (initSys 1 0) := Reach.init
    have r1 := Reach.tail r0 (Step.startScan _ rfl rfl)
    have r2 := Reach.tail r1 (Step.walkDone _ rfl rfl rfl rfl)
    have r3 := Reach.tail r2 (Step.reportStep _ rfl rfl)
    have r4 := Reach.tail r3 (Step.signalMainStep _ rfl rfl)
    have r5 := Reach.tail r4 (Step.signalFire _ rfl rfl)
    have r6 := Reach.tail r5 (Step.setFlag _ rfl rfl)
    have r7 := Reach.tail r6 (Step.handlerWaitDone _ rfl rfl rfl)
    have r8 := Reach.tail r7 (Step.handlerReport _ rfl rfl)
    exact r8
  · rfl

/-- C3 amended: in every reachable state of the interleaved run, once the
process has exited the report has executed at least once (never skipped)
and no pool worker is still inside analyseBinary mutating the frequency
tables; the report is however not always exactly once — an interrupt
arriving after normal completion can print it twice. -/
theorem drain_report_before_exit (j : Int) (n : Nat) (s : Sys)
    (h : Reach j n s) (hex : s.exited = true) :
    1 ≤ s.reports ∧ s.busy = 0 := by
  have hi := reach_inv h
  exact ⟨(hi.exited_ok hex).1, (hi.exited_ok hex).2.1⟩

/-- C3 witness. -/
theorem drain_report_before_exit_witness :
    Reach 1 0 ⟨1, 0, 0, 0, false, false, false, FolderPC.folderDone,
      HandlerPC.idle, 1, true, true, 0⟩ ∧
    (⟨1, 0, 0, 0, false, false, false, FolderPC.folderDone,
      HandlerPC.idle, 1, true, true, 0⟩ : Sys).exited = true ∧
    (1 ≤ (⟨1, 0, 0, 0, false, false, false, FolderPC.folderDone,
        HandlerPC.idle, 1, true, true, 0⟩ : Sys).reports ∧
     (⟨1, 0, 0, 0, false, false, false, FolderPC.folderDone,
        HandlerPC.idle, 1, true, true, 0⟩ : Sys).busy = 0) := by
  have r0 : Reach 1 0 (initSys 1 0) := Reach.init
  have r1 := Reach.tail r0 (Step.startScan _ rfl rfl)
  have r2 := Reach.tail r1 (Step.walkDone _ rfl rfl rfl rfl)
  have r3 := Reach.tail r2 (Step.reportStep _ rfl rfl)
  have r4 := Reach.tail r3 (Step.signalMainStep _ rfl rfl)
  have r5 := Reach.tail r4 (Step.mainExitStep _ rfl rfl)
  exact ⟨r5, rfl, drain_report_before_exit 1 0 _ r5 rfl⟩

/-- C5: when the dispatch walk observes the cancellation flag (the walk
ends in io.EOF), the tasks channel is closed exactly once, no walk error is
printed, the entries scheduled are exactly the candidates among the
callbacks before the interrupt point — nothing is dispatched after the flag
is set — and tasks already claimed by a worker run to completion: no
reachable exited state has a worker still inside analyseBinary. -/
theorem cancellation_flag_behaviour (sha : Bytes → Bytes) (jobs : Int)
    (corpus : List Entry) (k : Nat)
    (hobs : (dispatchWalk (some k) corpus).sawEOF = true) :
    (analyseFolder sha jobs (some k) corpus).closedCount = 1 ∧
    (analyseFolder sha jobs (some k) corpus).errPrinted = false ∧
    (analyseFolder sha jobs (some k) corpus).dispatched = candFilter (corpus.take k) ∧
    (∀ (j : Int) (n : Nat) (s : Sys), Reach j n s → s.exited = true → s.busy = 0) := by
  refine ⟨?_, ?_, ?_, ?_⟩
  · simp [analyseFolder, hobs]
  · exact analyseFolder_errPrinted sha jobs (some k) corpus
  · rw [analyseFolder_dispatched, dispatchWalk_some_dispatched]
  · intro j n s hr hex
    exact ((reach_inv hr).exited_ok hex).2.1

/-- C5 witness. -/
theorem cancellation_flag_behaviour_witness :
    (dispatchWalk (some 0)
        [⟨false, true, 172792, FileContent.notMacho⟩]).sawEOF = true ∧
    ((analyseFolder (fun b => b) 2 (some 0)
        [⟨false, true, 172792, FileContent.notMacho⟩]).closedCount = 1 ∧
     (analyseFolder (fun b => b) 2 (some 0)
        [⟨false, true, 172792, FileContent.notMacho⟩]).errPrinted = false ∧
     (analyseFolder (fun b => b) 2 (some 0)
        [⟨false, true, 172792, FileContent.notMacho⟩]).dispatched
        = candFilter (([⟨false, true, 172792, FileContent.notMacho⟩]
            : List Entry).take 0) ∧
     (∀ (j : Int) (n : Nat) (s : Sys), Reach j n s → s.exited = true → s.busy = 0)) :=
  ⟨by decide,
    cancellation_flag_behaviour (fun b => b) 2
      [⟨false, true, 172792, FileContent.notMacho⟩] 0 (by decide)⟩

/-- C7: main exits with a non-zero status exactly when the required input
path is missing — mainArgExit yields some 1 precisely for the empty -i
value and that status is non-zero — and in every other run every exit of a
reachable state (normal completion or interrupted-then-reported, walk
errors, unparseable files, empty tree included) carries exit code 0. -/
theorem exit_status (input : String) :
    (mainArgExit input = some 1 ↔ input = "") ∧
    (∀ c, mainArgExit input = some c → c = 1 ∧ c ≠ 0) ∧
    (∀ (j : Int) (n : Nat) (s : Sys), Reach j n s → s.exited = true → s.ecode = 0) := by
  refine ⟨?_, ?_, ?_⟩
  · constructor
    · intro h
      by_cases hi : input = ""
      · exact hi
      · simp [mainArgExit, hi] at h
    · intro h
      simp [mainArgExit, h]
  · intro c h
    by_cases hi : input = ""
    · simp [mainArgExit, hi] at h
      omega
    · simp [mainArgExit, hi] at h
  · intro j n s hr hex
    exact ((reach_inv hr).exited_ok hex).2.2

/-- C7 witness. -/
theorem exit_status_witness :
    mainArgExit "" = some 1 ∧
    Reach 1 1 ⟨1, 0, 0, 0, false, false, false, FolderPC.folderDone,
      HandlerPC.idle, 1, true, true, 0⟩ ∧
    (⟨1, 0, 0, 0, false, false, false, FolderPC.folderDone,
      HandlerPC.idle, 1, true, true, 0⟩ : Sys).exited = true ∧
    (⟨1, 0, 0, 0, false, false, false, FolderPC.folderDone,
      HandlerPC.idle, 1, true, true, 0⟩ : Sys).ecode = 0 := by
  have r0 : Reach 1 1 (initSys 1 1) := Reach.init
  have r1 := Reach.tail r0 (Step.startScan _ rfl rfl)
  have r2 := Reach.tail r1 (Step.dispatchInline _ rfl rfl (by decide) (by decide) rfl rfl)
  have r3 := Reach.tail r2 (Step.inlineFinish _ rfl rfl)
  have r4 := Reach.tail r3 (Step.walkDone _ rfl rfl rfl rfl)
  have r5 := Reach.tail r4 (Step.reportStep _ rfl rfl)
  have r6 := Reach.tail r5 (Step.signalMainStep _ rfl rfl)
  have r7 := Reach.tail r6 (Step.mainExitStep _ rfl rfl)
  exact ⟨(exit_status "").1.mpr rfl, r7, rfl, (exit_status "").2.2 1 1 _ r7 rfl⟩

end EvilQuestStats
